import Mathlib

/-!
Shallow embedding of the `cosmic-comp` D-Bus layer:
`src/dbus/a11y_keyboard_monitor.rs` (keysym/modifier codec, client session
table, keyboard-monitor protocol handlers, queries, key-event broadcast) and
`src/dbus/name_owners.rs` (name-ownership registry).

Machine integers (`u32`, `u16`) are embedded as `ℕ` with explicit masking
where the Rust code masks.  `HashSet<Keysym>` becomes `Finset ℕ` (equality of
`HashSet`s is set equality), `HashMap<UniqueName, Client>` becomes an
association list whose observable state is its `lookup` function, and
`Vec<KeyGrab>` becomes `List KeyGrab`.
-/

namespace CosmicComp

/-- `ATSPI_DEVICE_A11Y_MANAGER_VIRTUAL_MOD_START` from
`a11y_keyboard_monitor.rs`: the bit index where virtual-modifier bits begin
in the packed 32-bit modifier word. -/
def virtualModStart : ℕ := 15

/-- The `KeyGrab` struct: real modifier mask, virtual-modifier set, keysym.
Keysyms are embedded as `ℕ`. -/
structure KeyGrab where
  mods : ℕ
  virtual_mods : Finset ℕ
  key : ℕ
  deriving DecidableEq

/-- `KeyGrab::new` from `a11y_keyboard_monitor.rs`:
`mods = raw_mods & ((1 << 15) - 1)`; the virtual-modifier set keeps
`virtual_mods[i]` when `raw_mods & (1 << (15 + i as u32)) != 0`.
In compiled Rust a `u32` shift masks its amount modulo 32 and the
`i as u32` cast wraps modulo `2 ^ 32`; since `32 ∣ 2 ^ 32`, the tested bit
index is `(15 + i) % 32`. -/
def KeyGrab.new (virtual_mods : List ℕ) (key : ℕ) (raw_mods : ℕ) : KeyGrab where
  mods := raw_mods &&& ((1 <<< virtualModStart) - 1)
  virtual_mods :=
    (((virtual_mods.enum).filter
      (fun p => raw_mods &&& (1 <<< ((virtualModStart + p.1) % 32)) != 0)).map
        Prod.snd).toFinset
  key := key

/-- The per-client session struct `Client`: grab flag, watch flag, declared
virtual modifiers, registered key grabs. -/
structure Client where
  grabbed : Bool
  watched : Bool
  virtual_mods : Finset ℕ
  key_grabs : List KeyGrab
  deriving DecidableEq

/-- `Client::default()`: all fields false/empty. -/
def Client.default : Client :=
  { grabbed := false, watched := false, virtual_mods := ∅, key_grabs := [] }

/-- The client session table `Clients(HashMap<UniqueName, Client>)`.
Unique names are embedded as `ℕ`; the hash map as an association list whose
observable content is its `lookup` function. -/
abbrev Clients : Type := List (ℕ × Client)

/-- Hash-map lookup: the value stored for unique name `u`, if any. -/
def Clients.lookup : Clients → ℕ → Option Client
  | [], _ => none
  | (v, c) :: rest, u => if v = u then some c else Clients.lookup rest u

/-- The session for `u`, defaulting to `Client::default()` when absent
(the read side of `HashMap::entry(..).or_default()`). -/
def Clients.getD (cs : Clients) (u : ℕ) : Client :=
  (Clients.lookup cs u).getD Client.default

/-- `clients.get(sender)` followed by a field update `f`: mutate the entry in
place when present, otherwise insert `f Client.default`
(`HashMap::entry(name).or_default()` then mutation through the reference). -/
def Clients.upsert (cs : Clients) (u : ℕ) (f : Client → Client) : Clients :=
  match cs with
  | [] => [(u, f Client.default)]
  | (v, c) :: rest =>
      if v = u then (v, f c) :: rest else (v, c) :: Clients.upsert rest u f

/-- Two tables are the same hash-map state when every lookup agrees
(Rust `HashMap` equality). -/
def Clients.equiv (a b : Clients) : Prop :=
  ∀ u, Clients.lookup a u = Clients.lookup b u

/-- The sender of a protocol call, extracted from the message header:
`header.sender()` yields `Option<UniqueName>`. -/
abbrev Header : Type := Option ℕ

/-- `KeyboardMonitor::grab_keyboard`: with a sender, set its `grabbed` flag;
without one, do nothing. -/
def grab_keyboard (header : Header) (cs : Clients) : Clients :=
  match header with
  | some sender => Clients.upsert cs sender (fun c => { c with grabbed := true })
  | none => cs

/-- `KeyboardMonitor::ungrab_keyboard`. -/
def ungrab_keyboard (header : Header) (cs : Clients) : Clients :=
  match header with
  | some sender => Clients.upsert cs sender (fun c => { c with grabbed := false })
  | none => cs

/-- `KeyboardMonitor::watch_keyboard`. -/
def watch_keyboard (header : Header) (cs : Clients) : Clients :=
  match header with
  | some sender => Clients.upsert cs sender (fun c => { c with watched := true })
  | none => cs

/-- `KeyboardMonitor::unwatch_keyboard`. -/
def unwatch_keyboard (header : Header) (cs : Clients) : Clients :=
  match header with
  | some sender => Clients.upsert cs sender (fun c => { c with watched := false })
  | none => cs

/-- `KeyboardMonitor::set_key_grabs`: decode every `(keysym, rawMods)` pair of
`keystrokes` against the supplied `virtual_mods` list via `KeyGrab::new`;
with a sender, overwrite that session's `virtual_mods` with the symbol set
and its `key_grabs` with the decoded list; without one, do nothing. -/
def set_key_grabs (header : Header) (virtual_mods : List ℕ)
    (keystrokes : List (ℕ × ℕ)) (cs : Clients) : Clients :=
  let key_grabs := keystrokes.map (fun p => KeyGrab.new virtual_mods p.1 p.2)
  match header with
  | some sender =>
      Clients.upsert cs sender (fun c =>
        { c with virtual_mods := virtual_mods.toFinset, key_grabs := key_grabs })
  | none => cs

/-- The five protocol operations of `org.freedesktop.a11y.KeyboardMonitor`,
with their call arguments. -/
inductive Op
  | grab
  | ungrab
  | watch
  | unwatch
  | setKeyGrabs (virtual_mods : List ℕ) (keystrokes : List (ℕ × ℕ))

/-- Dispatch one protocol operation against the session table. -/
def applyOp (op : Op) (header : Header) (cs : Clients) : Clients :=
  match op with
  | .grab => grab_keyboard header cs
  | .ungrab => ungrab_keyboard header cs
  | .watch => watch_keyboard header cs
  | .unwatch => unwatch_keyboard header cs
  | .setKeyGrabs vm ks => set_key_grabs header vm ks cs

/-- `A11yKeyboardMonitorState::has_virtual_mod`: some session declared the
symbol. -/
def has_virtual_mod (cs : Clients) (keysym : ℕ) : Bool :=
  cs.any (fun p => decide (keysym ∈ p.2.virtual_mods))

/-- `A11yKeyboardMonitorState::has_keyboard_grab`: some session grabbed. -/
def has_keyboard_grab (cs : Clients) : Bool :=
  cs.any (fun p => p.2.grabbed)

/-- `A11yKeyboardMonitorState::has_key_grab`: some stored grab matches
`mods` and `key` exactly and whose virtual-modifier set equals the active
virtual-modifier set (`HashSet` equality, hence set equality). -/
def has_key_grab (cs : Clients) (active_virtual_mods : Finset ℕ)
    (mods : ℕ) (key : ℕ) : Bool :=
  cs.any (fun p =>
    p.2.key_grabs.any (fun grab =>
      grab.mods == mods && decide (grab.virtual_mods = active_virtual_mods)
        && grab.key == key))

/-- Key press/release, `smithay::backend::input::KeyState`. -/
inductive KeyState
  | Pressed
  | Released
  deriving DecidableEq

/-- The inputs `key_event` reads from its `KeysymHandle` argument:
`modified_sym()`, the UTF-32 codepoint the xkb state yields for the key, and
`raw_code()` (an externally supplied key code). -/
structure KeysymHandle where
  modified_sym : ℕ
  unichar : ℕ
  raw_code : ℕ
  deriving DecidableEq

/-- The payload of the `KeyEvent` signal built by
`A11yKeyboardMonitorState::key_event`. -/
structure KeyEventSignal where
  released : Bool
  layout_effective : ℕ
  keysym : ℕ
  unichar : ℕ
  keycode : ℕ
  deriving DecidableEq

/-- `A11yKeyboardMonitorState`: the published-connection cell (`OnceLock`,
embedded as `Option`: `none` while unpublished), the session table, and the
compositor-owned active virtual-modifier set. -/
structure MonitorState where
  conn : Option Unit
  clients : Clients
  active_virtual_mods : Finset ℕ

/-- `A11yKeyboardMonitorState::key_event`: return early (no signal) when the
connection cell is unset, or when no session has `watched = true`; otherwise
build the `KeyEvent` signal (`released` from the key state, the effective
layout, the modified keysym, the UTF-32 codepoint, and the raw key code
truncated by the `as u16` cast).  The method takes `&self`: the state is
returned unchanged. -/
def key_event (s : MonitorState) (layout_effective : ℕ)
    (keysym : KeysymHandle) (ks : KeyState) : Option KeyEventSignal × MonitorState :=
  match s.conn with
  | none => (none, s)
  | some _ =>
      if !s.clients.any (fun p => p.2.watched) then (none, s)
      else
        (some
          { released := match ks with | .Pressed => false | .Released => true
            layout_effective := layout_effective
            keysym := keysym.modified_sym
            unichar := keysym.unichar
            keycode := keysym.raw_code % 2 ^ 16 }, s)

/-- A bus name as carried by a `NameOwnerChanged` event: well-known or
unique.  `Inner::update_if_needed` only reacts to well-known names. -/
inductive BusName
  | wellKnown (n : ℕ)
  | unique (n : ℕ)
  deriving DecidableEq

/-- One `NameOwnerChanged` stream item: the changed name and its new owner
(`None` when the name was released). -/
structure NameOwnerEvent where
  name : BusName
  new_owner : Option ℕ
  deriving DecidableEq

/-- One iteration of the loop in `Inner::update_if_needed`: for a well-known
name, insert/overwrite the owner when present, remove the record when
absent; ignore unique names. -/
def applyEvent (owners : ℕ → Option ℕ) (e : NameOwnerEvent) : ℕ → Option ℕ :=
  match e.name with
  | .wellKnown n =>
      match e.new_owner with
      | some owner => fun k => if k = n then some owner else owners k
      | none => fun k => if k = n then none else owners k
  | .unique _ => owners

/-- Drain a buffered event sequence in stream order into the ownership map. -/
def drainEvents (owners : ℕ → Option ℕ) (events : List NameOwnerEvent) :
    ℕ → Option ℕ :=
  events.foldl applyEvent owners

/-- `Inner` of `name_owners.rs`: the well-known-name → unique-name map, the
not-yet-processed stream items in arrival order, and the enforcement flag.
Names are embedded as `ℕ`; the map as a function (absence = `none`). -/
structure NameOwnersState where
  name_owners : ℕ → Option ℕ
  pending : List NameOwnerEvent
  enforce : Bool

/-- `Inner::update_if_needed`: process all events buffered so far, in stream
order, leaving the stream empty. -/
def update_if_needed (s : NameOwnersState) : NameOwnersState :=
  { s with name_owners := drainEvents s.name_owners s.pending, pending := [] }

/-- `NameOwners::check_owner`: `true` immediately when enforcement is
disabled; otherwise drain the stream, then test whether `name` owns at least
one of `allowed_names`. -/
def check_owner (s : NameOwnersState) (name : ℕ) (allowed_names : List ℕ) : Bool :=
  if !s.enforce then true
  else
    let drained := update_if_needed s
    allowed_names.any (fun n => drained.name_owners n == some name)

/-! ### Helper lemmas -/

/-- The field update each of the five handlers performs on the sender's
session. -/
def opFun : Op → Client → Client
  | .grab => fun c => { c with grabbed := true }
  | .ungrab => fun c => { c with grabbed := false }
  | .watch => fun c => { c with watched := true }
  | .unwatch => fun c => { c with watched := false }
  | .setKeyGrabs vm ks => fun c =>
      { c with virtual_mods := vm.toFinset
               key_grabs := ks.map (fun p => KeyGrab.new vm p.1 p.2) }

/-- The per-session invariant: every stored grab's real-modifier mask fits
in the low 15 bits and its virtual-modifier set is contained in the
session's declared virtual modifiers. -/
def clientInv (c : Client) : Prop :=
  ∀ g ∈ c.key_grabs, g.mods < 2 ^ 15 ∧ g.virtual_mods ⊆ c.virtual_mods

/-- The table-wide invariant: every session satisfies `clientInv`. -/
def tableInv (cs : Clients) : Prop := ∀ p ∈ cs, clientInv p.2

lemma applyOp_some (op : Op) (u : ℕ) (cs : Clients) :
    applyOp op (some u) cs = Clients.upsert cs u (opFun op) := by
  cases op <;> rfl

lemma applyOp_none (op : Op) (cs : Clients) : applyOp op none cs = cs := by
  cases op <;> rfl

lemma opFun_idem (op : Op) (c : Client) : opFun op (opFun op c) = opFun op c := by
  cases op <;> rfl

lemma lookup_upsert (cs : Clients) (u : ℕ) (f : Client → Client) (w : ℕ) :
    Clients.lookup (Clients.upsert cs u f) w =
      if w = u then some (f (Clients.getD cs u)) else Clients.lookup cs w := by
  induction cs with
  | nil =>
      by_cases h : w = u <;>
        simp [Clients.upsert, Clients.lookup, Clients.getD, h, Ne.symm]
  | cons p rest ih =>
      obtain ⟨v, c⟩ := p
      by_cases hv : v = u
      · subst hv
        by_cases hw : w = v <;>
          simp [Clients.upsert, Clients.lookup, Clients.getD, hw, Ne.symm]
      · by_cases hw : w = v
        · subst hw
          have : ¬w = u := fun h => hv (h ▸ rfl)
          simp [Clients.upsert, Clients.lookup, hv, this]
        · simp [Clients.upsert, Clients.lookup, Clients.getD, hv, hw, Ne.symm] at ih ⊢
          rw [ih]

lemma getD_upsert_ne (cs : Clients) (u v : ℕ) (hne : u ≠ v) (f : Client → Client) :
    Clients.getD (Clients.upsert cs v f) u = Clients.getD cs u := by
  unfold Clients.getD
  rw [lookup_upsert, if_neg hne]

lemma upsert_upsert_same (cs : Clients) (u : ℕ) (f g : Client → Client) :
    Clients.upsert (Clients.upsert cs u f) u g =
      Clients.upsert cs u (fun c => g (f c)) := by
  induction cs with
  | nil => simp [Clients.upsert]
  | cons p rest ih =>
      obtain ⟨v, c⟩ := p
      by_cases hv : v = u <;> simp [Clients.upsert, hv, ih]

lemma upsert_comm (cs : Clients) (u v : ℕ) (hne : u ≠ v) (f g : Client → Client) :
    Clients.equiv (Clients.upsert (Clients.upsert cs v g) u f)
      (Clients.upsert (Clients.upsert cs u f) v g) := by
  intro w
  rw [lookup_upsert, lookup_upsert, lookup_upsert, lookup_upsert]
  by_cases hwu : w = u
  · subst hwu
    rw [if_pos rfl, if_neg hne, if_pos rfl, getD_upsert_ne cs w v hne]
  · rw [if_neg hwu]
    by_cases hwv : w = v
    · subst hwv
      rw [if_pos rfl, if_pos rfl, getD_upsert_ne cs w u (fun h => hne h.symm)]
    · rw [if_neg hwv, if_neg hwv, if_neg hwu]

lemma and_one_shiftLeft_ne_zero (raw k : ℕ) :
    raw &&& (1 <<< k) ≠ 0 ↔ Nat.testBit raw k := by
  rw [Nat.shiftLeft_eq, one_mul, Nat.and_two_pow]
  cases h : Nat.testBit raw k <;> simp [h, Nat.pos_iff_ne_zero.mp (Nat.pos_pow_of_pos k Nat.zero_lt_two)]

lemma mem_new_virtual_mods (vm : List ℕ) (key raw a : ℕ) :
    a ∈ (KeyGrab.new vm key raw).virtual_mods ↔
      ∃ i, ∃ _ : i < vm.length,
        vm[i] = a ∧ raw &&& (1 <<< ((virtualModStart + i) % 32)) ≠ 0 := by
  simp only [KeyGrab.new, List.mem_toFinset, List.mem_map, List.mem_filter,
    bne_iff_ne, ne_eq]
  constructor
  · rintro ⟨⟨i, x⟩, ⟨hmem, hbit⟩, hx⟩
    rw [List.mk_mem_enum_iff_getElem?] at hmem
    have hi : i < vm.length := (List.getElem?_eq_some.mp hmem).1
    obtain ⟨_, hval⟩ := List.getElem?_eq_some.mp hmem
    exact ⟨i, hi, by simpa [hval] using hx, by simpa using hbit⟩
  · rintro ⟨i, hi, hval, hbit⟩
    refine ⟨(i, a), ⟨?_, by simpa using hbit⟩, rfl⟩
    rw [List.mk_mem_enum_iff_getElem?]
    simp [List.getElem?_eq_some, hi, hval]

lemma new_virtual_mods_subset (vm : List ℕ) (key raw : ℕ) :
    (KeyGrab.new vm key raw).virtual_mods ⊆ vm.toFinset := by
  intro a ha
  rw [mem_new_virtual_mods] at ha
  obtain ⟨i, hi, hval, _⟩ := ha
  rw [List.mem_toFinset]
  exact hval ▸ List.getElem_mem hi

lemma new_mods_eq_mod (vm : List ℕ) (key raw : ℕ) :
    (KeyGrab.new vm key raw).mods = raw % 2 ^ 15 := by
  show raw &&& ((1 <<< 15) - 1) = raw % 2 ^ 15
  rw [Nat.shiftLeft_eq, one_mul, Nat.and_pow_two_sub_one_eq_mod]

lemma new_mods_lt (vm : List ℕ) (key raw : ℕ) :
    (KeyGrab.new vm key raw).mods < 2 ^ 15 := by
  rw [new_mods_eq_mod]
  exact Nat.mod_lt _ (by norm_num)

lemma and_one_shiftLeft_mod_two_pow (raw k : ℕ) (hk : k < 32) :
    ((raw % 2 ^ 32) &&& (1 <<< k) ≠ 0) ↔ (raw &&& (1 <<< k) ≠ 0) := by
  rw [and_one_shiftLeft_ne_zero, and_one_shiftLeft_ne_zero,
    Nat.testBit_mod_two_pow]
  simp [hk]

lemma getD_upsert_self (cs : Clients) (u : ℕ) (f : Client → Client) :
    Clients.getD (Clients.upsert cs u f) u = f (Clients.getD cs u) := by
  unfold Clients.getD
  rw [lookup_upsert, if_pos rfl]
  rfl

lemma clientInv_default : clientInv Client.default := by
  intro g hg
  simp [Client.default] at hg

lemma opFun_clientInv (op : Op) (c : Client) (hc : clientInv c) :
    clientInv (opFun op c) := by
  cases op with
  | grab => exact hc
  | ungrab => exact hc
  | watch => exact hc
  | unwatch => exact hc
  | setKeyGrabs vm ks =>
      intro g hg
      simp only [opFun, List.mem_map] at hg
      obtain ⟨p, _, rfl⟩ := hg
      exact ⟨new_mods_lt vm p.1 p.2, new_virtual_mods_subset vm p.1 p.2⟩

lemma tableInv_upsert (cs : Clients) (u : ℕ) (f : Client → Client)
    (hcs : tableInv cs) (hf : ∀ c, clientInv c → clientInv (f c)) :
    tableInv (Clients.upsert cs u f) := by
  induction cs with
  | nil =>
      intro p hp
      simp only [Clients.upsert, List.mem_singleton] at hp
      subst hp
      exact hf Client.default clientInv_default
  | cons q rest ih =>
      obtain ⟨v, c⟩ := q
      by_cases hv : v = u
      · simp only [Clients.upsert, if_pos hv]
        intro p hp
        rcases List.mem_cons.mp hp with hp | hp
        · subst hp
          exact hf c (hcs (v, c) (List.mem_cons_self _ _))
        · exact hcs p (List.mem_cons_of_mem _ hp)
      · simp only [Clients.upsert, if_neg hv]
        intro p hp
        rcases List.mem_cons.mp hp with hp | hp
        · subst hp
          exact hcs (v, c) (List.mem_cons_self _ _)
        · exact ih (fun q hq => hcs q (List.mem_cons_of_mem _ hq)) p hp

/-! ### Claim theorems -/

/-- C1 (counterexample): `KeyGrab::new` does not satisfy, for every ordered
list of virtual-modifier symbols, "the virtual-modifier set contains
`virtual_mod_symbols[i]` exactly when bit `(V + i)` of `raw_mods` is set".
First input: a list with a duplicated symbol — the symbol at index 1 is in
the decoded set although bit `V + 1` of `raw_mods` is clear.  Second input:
an 18-symbol list — the symbol at index 17 is in the decoded set although
bit `V + 17 = 32` of `raw_mods` is clear (the `u32` shift wraps its amount
modulo 32, so bit 0 governs index 17). -/
theorem C1_counterexample :
    (100 ∈ (KeyGrab.new [100, 100] 7 (2 ^ 15)).virtual_mods ∧
      Nat.testBit (2 ^ 15) (virtualModStart + 1) = false) ∧
    (117 ∈ (KeyGrab.new [100, 101, 102, 103, 104, 105, 106, 107, 108, 109,
        110, 111, 112, 113, 114, 115, 116, 117] 7 1).virtual_mods ∧
      Nat.testBit 1 (virtualModStart + 17) = false) := by
  decide

/-- C1 (amended): for every `raw_mods`, every key, and every list of
**distinct** virtual-modifier symbols of length at most `32 − V = 17`,
`KeyGrab::new` yields real mods `raw_mods & ((1 << V) − 1) = raw_mods mod
2 ^ 15`, keeps the key unchanged, and its virtual-modifier set contains
`virtual_mod_symbols[i]` exactly when bit `V + i` of `raw_mods` is set. -/
theorem C1_keygrab_decode (vm : List ℕ) (key raw : ℕ)
    (hnd : vm.Nodup) (hlen : vm.length ≤ 17) :
    (KeyGrab.new vm key raw).mods = raw % 2 ^ 15 ∧
    (KeyGrab.new vm key raw).key = key ∧
    ∀ i, (hi : i < vm.length) →
      (vm[i] ∈ (KeyGrab.new vm key raw).virtual_mods ↔
        Nat.testBit raw (virtualModStart + i)) := by
  refine ⟨new_mods_eq_mod vm key raw, rfl, ?_⟩
  intro i hi
  rw [mem_new_virtual_mods]
  have hlt : (virtualModStart + i) % 32 = virtualModStart + i :=
    Nat.mod_eq_of_lt (by simp only [virtualModStart]; omega)
  constructor
  · rintro ⟨j, hj, hval, hbit⟩
    have hij : j = i := (@List.Nodup.getElem_inj_iff ℕ vm hnd j hj i hi).mp hval
    subst hij
    rw [hlt] at hbit
    exact (and_one_shiftLeft_ne_zero raw _).mp hbit
  · intro hbit
    refine ⟨i, hi, rfl, ?_⟩
    rw [hlt]
    exact (and_one_shiftLeft_ne_zero raw _).mpr hbit

/-- C1 (witness): the amended decode theorem applied at a concrete input. -/
theorem C1_witness :
    100 ∈ (KeyGrab.new [100, 101] 7 (2 ^ 15)).virtual_mods :=
  ((C1_keygrab_decode [100, 101] 7 (2 ^ 15) (by decide) (by decide)).2.2 0
    (by decide)).mpr (by decide)

/-- C8 (counterexample): decode is not "unobservable" at bit indices at or
beyond 32: with an 18-symbol list and `raw_mods = 1`, the symbol at index 17
(whose governing bit index is `V + 17 = 32`) is included in the decoded set
even though bit 32 of `raw_mods` is clear — the `u32` shift wraps its amount
modulo 32, so bit 0 is consulted instead. -/
theorem C8_counterexample :
    217 ∈ (KeyGrab.new [200, 201, 202, 203, 204, 205, 206, 207, 208, 209,
        210, 211, 212, 213, 214, 215, 216, 217] 9 1).virtual_mods ∧
    Nat.testBit 1 (virtualModStart + 17) = false := by
  decide

/-- C8 (amended): decode is pure and total for every `raw_mods`, key, and
symbol list (it is a Lean function); its output depends only on the low 32
bits of `raw_mods`, and only supplied symbols ever appear in the
virtual-modifier set.  (For lists longer than 17 symbols the consulted bit
index wraps modulo 32 rather than being unobservable.) -/
theorem C8_decode_total (vm : List ℕ) (key raw : ℕ) :
    KeyGrab.new vm key raw = KeyGrab.new vm key (raw % 2 ^ 32) ∧
    (KeyGrab.new vm key raw).virtual_mods ⊆ vm.toFinset := by
  refine ⟨?_, new_virtual_mods_subset vm key raw⟩
  simp only [KeyGrab.new, KeyGrab.mk.injEq]
  refine ⟨?_, ?_, trivial⟩
  · rw [Nat.shiftLeft_eq, one_mul,
      Nat.and_pow_two_sub_one_eq_mod, Nat.and_pow_two_sub_one_eq_mod,
      Nat.mod_mod_of_dvd]
    exact pow_dvd_pow 2 (by simp [virtualModStart])
  · congr 1
    exact congrArg (List.map Prod.snd)
      (List.filter_congr (fun p _ => by
        rw [Bool.eq_iff_iff, bne_iff_ne, bne_iff_ne]
        exact (and_one_shiftLeft_mod_two_pow raw _
          (Nat.mod_lt _ (by norm_num))).symm))

/-- C2: `has_key_grab` is true exactly when some stored grab, across all
sessions, matches `mods` and `key` exactly and whose virtual-modifier set
equals the active set as a set; in particular a stored grab with virtual
set `{1, 2}` matches active set `{1, 2}` but neither `{1}` nor `{1, 2, 3}`. -/
theorem C2_has_key_grab_exact :
    (∀ (cs : Clients) (active : Finset ℕ) (mods key : ℕ),
      has_key_grab cs active mods key = true ↔
        ∃ p ∈ cs, ∃ grab ∈ p.2.key_grabs,
          grab.mods = mods ∧ grab.key = key ∧ grab.virtual_mods = active) ∧
    has_key_grab [(0, ⟨false, false, {1, 2}, [⟨3, {1, 2}, 9⟩]⟩)] {1, 2} 3 9 = true ∧
    has_key_grab [(0, ⟨false, false, {1, 2}, [⟨3, {1, 2}, 9⟩]⟩)] {1} 3 9 = false ∧
    has_key_grab [(0, ⟨false, false, {1, 2}, [⟨3, {1, 2}, 9⟩]⟩)] {1, 2, 3} 3 9 = false := by
  refine ⟨?_, by decide, by decide, by decide⟩
  intro cs active mods key
  simp only [has_key_grab, List.any_eq_true, Bool.and_eq_true, beq_iff_eq,
    decide_eq_true_eq]
  tauto

/-- C3: `check_owner` is true iff enforcement is disabled or the identity
owns one of the allowed names after draining the buffered events in stream
order (insert on present owner, remove on absent); consequently after the
event sequence `[(N, U1), (N, U2), (N, none)]` neither `U1` nor `U2` passes
the check for `N`, and with enforcement disabled the check always passes. -/
theorem C3_check_owner_spec :
    (∀ (s : NameOwnersState) (name : ℕ) (allowed : List ℕ),
      check_owner s name allowed = true ↔
        (s.enforce = false ∨
          ∃ n ∈ allowed, drainEvents s.name_owners s.pending n = some name)) ∧
    (∀ (owners : ℕ → Option ℕ) (N U1 U2 : ℕ),
      check_owner ⟨owners, [⟨.wellKnown N, some U1⟩, ⟨.wellKnown N, some U2⟩,
        ⟨.wellKnown N, none⟩], true⟩ U1 [N] = false ∧
      check_owner ⟨owners, [⟨.wellKnown N, some U1⟩, ⟨.wellKnown N, some U2⟩,
        ⟨.wellKnown N, none⟩], true⟩ U2 [N] = false) ∧
    (∀ (s : NameOwnersState) (name : ℕ) (allowed : List ℕ),
      s.enforce = false → check_owner s name allowed = true) := by
  refine ⟨?_, ?_, ?_⟩
  · intro s name allowed
    cases hs : s.enforce <;>
      simp [check_owner, update_if_needed, hs, List.any_eq_true, beq_iff_eq]
  · intro owners N U1 U2
    constructor <;>
      simp [check_owner, update_if_needed, drainEvents, applyEvent]
  · intro s name allowed hs
    simp [check_owner, hs]

/-- C3 (witness): the enforcement-disabled branch on a never-populated
registry. -/
theorem C3_witness :
    check_owner ⟨fun _ => none, [], false⟩ 0 [] = true :=
  C3_check_owner_spec.2.2 ⟨fun _ => none, [], false⟩ 0 [] rfl

/-- C6: each of the five protocol operations with no sender identity in the
call header leaves the session table exactly unchanged. -/
theorem C6_no_sender_noop (op : Op) (cs : Clients) : applyOp op none cs = cs :=
  applyOp_none op cs

/-- C7: `key_event` never changes the monitor state, and dispatches no
signal exactly when the serving connection is not yet published or no
session has `watched = true`. -/
theorem C7_key_event_noop (s : MonitorState) (layout : ℕ)
    (keysym : KeysymHandle) (ks : KeyState) :
    (key_event s layout keysym ks).2 = s ∧
    ((key_event s layout keysym ks).1 = none ↔
      s.conn = none ∨ ∀ p ∈ s.clients, p.2.watched = false) := by
  obtain ⟨conn, clients, active⟩ := s
  cases conn with
  | none => simp [key_event]
  | some c =>
      refine ⟨?_, ?_⟩
      · by_cases h : clients.any (fun p => p.2.watched) <;> simp [key_event, h]
      · simp only [key_event]
        cases h : clients.any (fun p => p.2.watched) with
        | true =>
            rw [if_neg (by simp [h])]
            simp only [reduceCtorEq, false_iff, not_or]
            refine ⟨by simp, ?_⟩
            intro hall
            obtain ⟨⟨a, b⟩, hab, hw⟩ := List.any_eq_true.mp h
            rw [hall (a, b) hab] at hw
            cases hw
        | false =>
            rw [if_pos (by simp [h])]
            simp only [true_iff]
            right
            intro p hp
            have h' := List.any_eq_false.mp h p hp
            simpa using h'

/-- C10: with enforcement enabled, `check_owner` with an empty allowed-name
list is false, whatever the registry map and pending events hold. -/
theorem C10_check_owner_empty (s : NameOwnersState) (name : ℕ)
    (hs : s.enforce = true) : check_owner s name [] = false := by
  simp [check_owner, hs]

/-- C10 (witness): a registry with contents and a pending event still
rejects an empty allowed-name list. -/
theorem C10_witness :
    check_owner ⟨fun _ => some 9, [⟨.wellKnown 3, some 4⟩], true⟩ 4 [] = false :=
  C10_check_owner_empty ⟨fun _ => some 9, [⟨.wellKnown 3, some 4⟩], true⟩ 4 rfl

/-- C4: `SetKeyGrabs` with a sender replaces that session's declared
virtual modifiers with the supplied symbol set and its grabs with the
decoded keystroke list, leaves every other session untouched, and two
successive registrations leave exactly the second list — registering
`[(k1, m1)]` then `[(k2, m2)]` leaves exactly one grab, for `(k2, m2)`. -/
theorem C4_set_key_grabs_replaces (cs : Clients) (u : ℕ) (vm : List ℕ)
    (ks : List (ℕ × ℕ)) :
    (Clients.getD (set_key_grabs (some u) vm ks cs) u).virtual_mods = vm.toFinset ∧
    (Clients.getD (set_key_grabs (some u) vm ks cs) u).key_grabs =
      ks.map (fun p => KeyGrab.new vm p.1 p.2) ∧
    (∀ v, v ≠ u →
      Clients.lookup (set_key_grabs (some u) vm ks cs) v = Clients.lookup cs v) ∧
    (∀ k1 m1 k2 m2 (vm1 : List ℕ),
      (Clients.getD (set_key_grabs (some u) vm [(k2, m2)]
          (set_key_grabs (some u) vm1 [(k1, m1)] cs)) u).key_grabs =
        [KeyGrab.new vm k2 m2]) := by
  have hdef : ∀ (vm' : List ℕ) (ks' : List (ℕ × ℕ)) (cs' : Clients),
      set_key_grabs (some u) vm' ks' cs' =
        Clients.upsert cs' u (opFun (.setKeyGrabs vm' ks')) :=
    fun vm' ks' cs' => rfl
  refine ⟨?_, ?_, ?_, ?_⟩
  · rw [hdef, getD_upsert_self]
    rfl
  · rw [hdef, getD_upsert_self]
    rfl
  · intro v hv
    rw [hdef, lookup_upsert, if_neg hv]
  · intro k1 m1 k2 m2 vm1
    rw [hdef, hdef, getD_upsert_self, getD_upsert_self]
    rfl

/-- C4 (witness): the replace theorem applied at a concrete input. -/
theorem C4_witness :
    Clients.lookup (set_key_grabs (some 0) [5] [(1, 2)] []) 3 =
      Clients.lookup ([] : Clients) 3 :=
  (C4_set_key_grabs_replaces [] 0 [5] [(1, 2)]).2.2.1 3 (by decide)

/-- C5: each of the five protocol operations is idempotent — applying it
twice with the same sender and arguments yields the same session table as
applying it once — and operations by distinct sender identities commute up
to hash-map equality (`Clients.equiv`, agreement of every lookup). -/
theorem C5_ops_idempotent_commute :
    (∀ (op : Op) (h : Header) (cs : Clients),
      applyOp op h (applyOp op h cs) = applyOp op h cs) ∧
    (∀ (op1 op2 : Op) (u v : ℕ) (cs : Clients), u ≠ v →
      Clients.equiv (applyOp op1 (some u) (applyOp op2 (some v) cs))
        (applyOp op2 (some v) (applyOp op1 (some u) cs))) := by
  constructor
  · intro op h cs
    cases h with
    | none => rw [applyOp_none, applyOp_none]
    | some u =>
        rw [applyOp_some, applyOp_some, upsert_upsert_same]
        congr 1
        funext c
        exact opFun_idem op c
  · intro op1 op2 u v cs hne
    rw [applyOp_some, applyOp_some, applyOp_some, applyOp_some]
    exact upsert_comm cs u v hne (opFun op1) (opFun op2)

/-- C5 (witness): commutation of a grab and a watch by distinct senders,
from the claim theorem at a concrete input. -/
theorem C5_witness :
    Clients.equiv (applyOp .grab (some 0) (applyOp .watch (some 1) []))
      (applyOp .watch (some 1) (applyOp .grab (some 0) [])) :=
  C5_ops_idempotent_commute.2 .grab .watch 0 1 [] (by decide)

/-- C9: `KeyGrab::new` always yields a real-modifier mask below `2 ^ 15` and
a virtual-modifier set drawn from the supplied symbol list, and all five
protocol operations preserve the table invariant that every stored grab
has `mods < 2 ^ 15` and virtual modifiers contained in its session's
declared set. -/
theorem C9_invariant_preserved :
    (∀ (vm : List ℕ) (key raw : ℕ),
      (KeyGrab.new vm key raw).mods < 2 ^ 15 ∧
      (KeyGrab.new vm key raw).virtual_mods ⊆ vm.toFinset) ∧
    (∀ (op : Op) (h : Header) (cs : Clients),
      tableInv cs → tableInv (applyOp op h cs)) := by
  constructor
  · exact fun vm key raw =>
      ⟨new_mods_lt vm key raw, new_virtual_mods_subset vm key raw⟩
  · intro op h cs hinv
    cases h with
    | none => rw [applyOp_none]; exact hinv
    | some u =>
        rw [applyOp_some]
        exact tableInv_upsert cs u (opFun op) hinv (opFun_clientInv op)

/-- C9 (witness): the invariant after a concrete `SetKeyGrabs` on the empty
table, from the claim theorem. -/
theorem C9_witness :
    tableInv (applyOp (.setKeyGrabs [5] [(1, 2 ^ 15)]) (some 0) []) :=
  C9_invariant_preserved.2 (.setKeyGrabs [5] [(1, 2 ^ 15)]) (some 0) []
    (fun p hp => absurd hp (List.not_mem_nil p))

end CosmicComp
